import Mathlib

/-!
Shallow embedding of the core of `run_imdb_queries_to_excel.py`: the
statement splitter `split_mysql_statements` and the marker extractor
`extract_setup_and_queries`.  Text is modelled as `List Char`; the Python
regular expressions are hand-compiled to deterministic scanners (each
regex used by the program is backtracking-free on the character classes
involved, so maximal-munch scanning is exact).  Character classes are the
ASCII fragments of Python's `\s`, `\w`, `\d`: the program's inputs are
SQL text files and every property below is stated over this model.
-/

/-- ASCII fragment of Python's whitespace class `\s` (also used by
`str.strip`). -/
def pyIsSpace (c : Char) : Bool :=
  c == ' ' || c == '\t' || c == '\n' || c == '\r' || c == '\x0b' || c == '\x0c'

/-- ASCII fragment of Python's word class `\w` (used for `\b` boundaries). -/
def isWordChar (c : Char) : Bool :=
  c.isAlphanum || c == '_'

/-- Python's `str.strip()`: remove leading and trailing whitespace. -/
def pyStrip (cs : List Char) : List Char :=
  ((cs.dropWhile pyIsSpace).reverse.dropWhile pyIsSpace).reverse

/-- Python's `str.splitlines()` line-boundary characters (besides the
two-character boundary `"\r\n"`, handled by `splitlinesAux`). -/
def isLineBoundary (c : Char) : Bool :=
  c == '\n' || c == '\r' || c == '\x0b' || c == '\x0c' ||
  c == '\x1c' || c == '\x1d' || c == '\x1e' ||
  c == '\x85' || c == Char.ofNat 0x2028 || c == Char.ofNat 0x2029

/-- Worker for `splitLines`: accumulates the current line reversed. -/
def splitlinesAux : List Char → List Char → List (List Char)
  | [], acc => if acc.isEmpty then [] else [acc.reverse]
  | '\r' :: '\n' :: rest, acc => acc.reverse :: splitlinesAux rest []
  | c :: rest, acc =>
    if isLineBoundary c then acc.reverse :: splitlinesAux rest []
    else splitlinesAux rest (c :: acc)

/-- Python's `str.splitlines()` (`sql_text.splitlines()` in the source). -/
def splitLines (cs : List Char) : List (List Char) :=
  splitlinesAux cs []

/-- Substring test: Python's `pat in l`. -/
def containsSub (l pat : List Char) : Bool :=
  l.tails.any (fun t => pat.isPrefixOf t)

/-- Case-insensitive literal match: consume `pat` (given lowercase) from
the front of `t`, returning the remainder.  Models a literal regex token
under `re.IGNORECASE`. -/
def stripCI : List Char → List Char → Option (List Char)
  | t, [] => some t
  | [], _ :: _ => none
  | c :: t, p :: ps => if c.toLower == p then stripCI t ps else none

/-- Suffix of the input after the first block-comment closer `*/`,
or `none` when the input has no closer (the non-greedy `.*?\*/`). -/
def findCloser : List Char → Option (List Char)
  | c :: d :: rest =>
    if c == '*' && d == '/' then some rest else findCloser (d :: rest)
  | _ => none

/-- Fuelled worker for `subInline` (fuel = input length suffices: every
step consumes at least one character). -/
def subInlineF : Nat → List Char → List Char
  | 0, cs => cs
  | _ + 1, [] => []
  | _ + 1, [c] => [c]
  | f + 1, c :: d :: rest =>
    if c == '/' && d == '*' then
      match findCloser rest with
      | some rest2 => ' ' :: subInlineF f rest2
      | none => c :: d :: rest
    else c :: subInlineF f (d :: rest)

/-- Python's `re.sub(r'/\*.*?\*/', ' ', l)`: replace each non-greedy
same-line block comment with a single space; an opener with no closer
anywhere after it is left untouched. -/
def subInline (cs : List Char) : List Char :=
  subInlineF cs.length cs

/-- Python's `re.match(r'\s*--\s*Q\d+', l, re.IGNORECASE)` as a Bool:
the line starts (after whitespace) with a `--` leader, optional
whitespace, `Q` or `q`, and at least one digit. -/
def matchQLine (l : List Char) : Bool :=
  match l.dropWhile pyIsSpace with
  | '-' :: '-' :: rest =>
    (match rest.dropWhile pyIsSpace with
     | c :: rest2 =>
       (c == 'Q' || c == 'q') &&
       (match rest2 with
        | d :: _ => d.isDigit
        | [] => false)
     | [] => false)
  | _ => false

/-- Match of `Segment\s+\d+` (case-insensitive) at the head of `t`. -/
def segAt (t : List Char) : Bool :=
  match stripCI t (("segment").data) with
  | some rest =>
    (match rest with
     | c :: _ => pyIsSpace c
     | [] => false) &&
    (match rest.dropWhile pyIsSpace with
     | d :: _ => d.isDigit
     | [] => false)
  | none => false

/-- Python's `re.search(r'Segment\s+\d+', l, re.IGNORECASE)` as a Bool. -/
def searchSegment (l : List Char) : Bool :=
  l.tails.any segAt

/-- The comment-filter preservation rule of `split_mysql_statements`:
query-marker lines and phase-marker lines are kept verbatim. -/
def keepLine (l : List Char) : Bool :=
  matchQLine l || searchSegment l

/-- Python's `re.sub(r'--.*$', '', l)`: cut the line at its first `--`. -/
def stripDashComment : List Char → List Char
  | c :: d :: rest =>
    if c == '-' && d == '-' then [] else c :: stripDashComment (d :: rest)
  | l => l

/-- Per-line processing of the comment filter once outside a block
comment: inline block comments become a space, marker lines are kept
verbatim, other lines lose their `--` tail. -/
def processLine (l : List Char) : List Char :=
  let l1 := subInline l
  if keepLine l1 then l1 else stripDashComment l1

/-- Pass 1 of `split_mysql_statements`: the per-line comment filter with
its "inside block comment" flag.  A line opening a block comment without
closing it is dropped entirely, as are all lines up to and including the
closing line. -/
def commentFilter : List (List Char) → Bool → List (List Char)
  | [], _ => []
  | l :: ls, in_block =>
    if in_block then
      (if containsSub l (("*/").data) then commentFilter ls false
       else commentFilter ls true)
    else if containsSub l (("/*").data) && !containsSub l (("*/").data) then
      commentFilter ls true
    else
      processLine l :: commentFilter ls false

/-- State of the pass-2 character scan of `split_mysql_statements`. -/
structure ScanState where
  stmts : List (List Char)
  buff : List Char
  in_single : Bool
  in_double : Bool
  esc : Bool
deriving DecidableEq, Repr

/-- The single-quote flag after reading `ch`: a quote character toggles
its own flag only when the other quote flag is closed and no escape is
active. -/
def singleAfter (st : ScanState) (ch : Char) : Bool :=
  if ch == '\'' && !st.in_double && !st.esc then !st.in_single else st.in_single

/-- The double-quote flag after reading `ch` (the `elif` of the source:
its guard `ch == '"'` already excludes the single-quote branch). -/
def doubleAfter (st : ScanState) (ch : Char) : Bool :=
  if ch == '"' && !st.in_single && !st.esc then !st.in_double else st.in_double

/-- One character step of the pass-2 scan: a terminator outside both
quote styles flushes the stripped buffer, anything else is buffered. -/
def scanStep (st : ScanState) (ch : Char) : ScanState :=
  if ch == ';' && !(singleAfter st ch) && !(doubleAfter st ch) then
    ⟨st.stmts ++ [pyStrip st.buff], [], singleAfter st ch, doubleAfter st ch,
      ch == '\\' && !st.esc⟩
  else
    ⟨st.stmts, st.buff ++ [ch], singleAfter st ch, doubleAfter st ch,
      ch == '\\' && !st.esc⟩

/-- The pass-2 scan over a character sequence. -/
def scanChars (st : ScanState) (cs : List Char) : ScanState :=
  cs.foldl scanStep st

/-- The initial scan state. -/
def initScan : ScanState :=
  ⟨[], [], false, false, false⟩

/-- End of input: flush a non-empty trimmed tail, then keep only
non-blank statements. -/
def finishScan (st : ScanState) : List (List Char) :=
  (if st.buff.isEmpty then st.stmts
   else if (pyStrip st.buff).isEmpty then st.stmts
   else st.stmts ++ [pyStrip st.buff]).filter (fun s => !(pyStrip s).isEmpty)

/-- The statement splitter `split_mysql_statements` of the source:
comment filtering per line, then a quote-aware character scan for `;`
boundaries. -/
def split_mysql_statements (sql_text : List Char) : List (List Char) :=
  let kept := commentFilter (splitLines sql_text) false
  let text := List.intercalate (['\n']) kept
  finishScan (scanChars initScan text)

/-- Boundary test for a position given the previous character: Python's
`\b` before a word character (true at the start of the text or after a
non-word character). -/
def atBoundary : Option Char → Bool
  | none => true
  | some p => !isWordChar p

/-- Boundary test after a word character: the remainder must be empty or
start with a non-word character. -/
def boundaryFree : List Char → Bool
  | [] => true
  | c :: _ => !isWordChar c

/-- Match of the code's `\bSegment\s*1\b` (case-insensitive) at the head
of `t`, `prev` being the character before `t`. -/
def seg1At (prev : Option Char) (t : List Char) : Bool :=
  atBoundary prev &&
  match stripCI t (("segment").data) with
  | some rest =>
    (match rest.dropWhile pyIsSpace with
     | '1' :: rest2 => boundaryFree rest2
     | _ => false)
  | none => false

/-- Scan every position of a text for a position-wise token test. -/
def scanToken (f : Option Char → List Char → Bool) : Option Char → List Char → Bool
  | _, [] => false
  | prev, c :: rest => f prev (c :: rest) || scanToken f (some c) rest

/-- Python's `re.search(r'\bSegment\s*1\b', s, re.IGNORECASE)` as a Bool:
the phase-marker test used to locate the first Segment-1 statement. -/
def containsSeg1 (s : List Char) : Bool :=
  scanToken seg1At none s

/-- Index of the first statement containing the Segment-1 marker
(`seg1_idx` of the source's enumerate loop). -/
def seg1Idx : List (List Char) → Option Nat
  | [] => none
  | s :: rest => if containsSeg1 s then some 0 else (seg1Idx rest).map (· + 1)

/-- The setup partition: every statement strictly before the first one
containing the Segment-1 marker, or all statements when none does. -/
def setupOf (stmts : List (List Char)) : List (List Char) :=
  match seg1Idx stmts with
  | some i => stmts.take i
  | none => stmts

/-- Match of the query-marker pattern
`^\s*--\s*(Q\d+)\s*[—\-–]*\s*(.*)$` (`re.IGNORECASE | re.MULTILINE`) at a
line-start position: returns the digit string of group 1 and the full
matched span (group 0).  Every starred class is followed by a token from
a disjoint class, so greedy maximal munch is exact; the `\s` classes may
cross newlines exactly as in Python, and `.` stops before `'\n'`. -/
def isDashSep (c : Char) : Bool :=
  c == '-' || c == Char.ofNat 0x2014 || c == Char.ofNat 0x2013

/-- Worker for `matchQPatAt`: see `isDashSep` above for the separator
class `[—\-–]`. -/
def matchQPatAt (t : List Char) : Option (List Char × List Char) :=
  match (t.dropWhile pyIsSpace : List Char) with
  | '-' :: '-' :: t2 =>
    (match (t2.dropWhile pyIsSpace : List Char) with
     | q :: t4 =>
       if q == 'Q' || q == 'q' then
         let digits := t4.takeWhile Char.isDigit
         if digits.isEmpty then none
         else
           let t5 := t4.drop digits.length
           let t6 := t5.dropWhile pyIsSpace
           let t7 := t6.dropWhile isDashSep
           let t8 := t7.dropWhile pyIsSpace
           let content := t8.takeWhile (fun c => !(c == '\n'))
           let rest := t8.drop content.length
           some (digits, t.take (t.length - rest.length))
       else none
     | [] => none)
  | _ => false |> fun _ => none

/-- Fuelled worker for `findMarkers` (fuel = length + 1 suffices: every
step consumes at least one character).  `pos` is the character offset of
`t` in the raw text and `lineStart` tells whether `^` matches there under
`re.MULTILINE`; matches are non-overlapping, continuing at each match
end, as with `finditer`. -/
def findMarkersAux : Nat → List Char → Nat → Bool → List (List Char × Nat × List Char)
  | 0, _, _, _ => []
  | _ + 1, [], _, _ => []
  | f + 1, c :: rest, pos, lineStart =>
    if lineStart then
      match matchQPatAt (c :: rest) with
      | some (digits, g0) =>
        (digits, pos, g0) ::
          findMarkersAux f ((c :: rest).drop g0.length) (pos + g0.length)
            (g0.getLast? == some '\n')
      | none => findMarkersAux f rest (pos + 1) (c == '\n')
    else findMarkersAux f rest (pos + 1) (c == '\n')

/-- All query markers of the raw text, in order of appearance: digit
string, start offset, and matched line (the source's `q_positions`, with
group 1 reduced to its digits as by `re.sub(r'\D', '', qkey)`). -/
def findMarkers (raw : List Char) : List (List Char × Nat × List Char) :=
  findMarkersAux (raw.length + 1) raw 0 true

/-- The prefix of `u` up to and including its first `;`, or `none`
when `u` has no terminator (the non-greedy `.*?;` under `re.DOTALL`). -/
def takeThroughSemi : List Char → Option (List Char)
  | [] => none
  | c :: rest =>
    if c == ';' then some [c] else (takeThroughSemi rest).map (c :: ·)

/-- Match of `SELECT` (case-insensitive) followed by a `\b` boundary at
the head of `t`. -/
def selectAt (t : List Char) : Bool :=
  match stripCI t (("select").data) with
  | some rest => boundaryFree rest
  | none => false

/-- Least offset in `t` at which `selectAt` holds (the non-greedy inner
`.+?SELECT\b` search). -/
def findSelectIdx : List Char → Option Nat
  | [] => none
  | c :: rest =>
    if selectAt (c :: rest) then some 0 else (findSelectIdx rest).map (· + 1)

/-- The `SELECT` branch of the query pattern
`(?is)\b(SELECT|WITH\b.+?SELECT)\b.*?;` at the head of `t`: the keyword,
a boundary, then the shortest run of characters up to and including the
next terminator. -/
def trySelectBr (t : List Char) : Option (List Char) :=
  match stripCI t (("select").data) with
  | some rest =>
    if boundaryFree rest then
      match takeThroughSemi rest with
      | some tail => some (t.take 6 ++ tail)
      | none => none
    else none
  | none => none

/-- The `WITH` branch of the query pattern at the head of `t`: `WITH`,
a boundary, at least one character, the nearest following `SELECT` with
a boundary after it, then the shortest run up to and including the next
terminator. -/
def tryWith (t : List Char) : Option (List Char) :=
  match stripCI t (("with").data) with
  | some rest2 =>
    if boundaryFree rest2 then
      match rest2 with
      | [] => none
      | _ :: rest3 =>
        (match findSelectIdx rest3 with
         | some j =>
           (match takeThroughSemi (rest3.drop (j + 6)) with
            | some tail => some (t.take (4 + 1 + j + 6) ++ tail)
            | none => none)
         | none => none)
    else none
  | none => none

/-- The query pattern at one position: the alternation tries `SELECT`
first, then `WITH` (a text cannot begin with both keywords). -/
def qMatchAt (t : List Char) : Option (List Char) :=
  match trySelectBr t with
  | some g => some g
  | none => tryWith t

/-- Worker for `qSearch`: leftmost match over all `\b` positions. -/
def qSearchAux : Option Char → List Char → Option (List Char)
  | _, [] => none
  | prev, c :: rest =>
    if atBoundary prev then
      match qMatchAt (c :: rest) with
      | some g => some g
      | none => qSearchAux (some c) rest
    else qSearchAux (some c) rest

/-- Python's `re.search(r'(?is)\b(SELECT|WITH\b.+?SELECT)\b.*?;', block)`:
the first SQL statement of a query block, as matched text (group 0). -/
def qSearch (block : List Char) : Option (List Char) :=
  qSearchAux none block

/-- A query entry of the extractor's mapping. -/
structure QueryEntry where
  label : List Char
  sql : List Char
deriving DecidableEq, Repr

/-- Python's `str.rstrip(';')`: remove every trailing terminator. -/
def rstripSemi (cs : List Char) : List Char :=
  (cs.reverse.dropWhile (fun c => c == ';')).reverse

/-- The entry's sql text: the matched span stripped of whitespace, then
of trailing terminators (`m.group(0).strip().rstrip(';')`). -/
def sqlOf (g : List Char) : List Char :=
  rstripSemi (pyStrip g)

/-- The entry's label: the marker's matched line with outer whitespace
and leading dashes trimmed (`label_line.strip().lstrip('-').strip()`). -/
def labelOf (g0 : List Char) : List Char :=
  pyStrip ((pyStrip g0).dropWhile (fun c => c == '-'))

/-- The natural-number value of a digit string (Python's `int`). -/
def digitsToNat (ds : List Char) : Nat :=
  ds.foldl (fun a c => a * 10 + (c.toNat - ('0').toNat)) 0

/-- The decimal digits of `n`. -/
def natDigits (n : Nat) : List Char :=
  (Nat.repr n).data

/-- The normalized key `f"Q{qnum:02d}"`: `Q` then the decimal digits of
`n`, left-padded with `0` to at least two digits and never truncated. -/
def qstd (n : Nat) : List Char :=
  'Q' :: (if n < 10 then '0' :: natDigits n else natDigits n)

/-- Normalized key of a marker's digit string. -/
def qstdOf (digits : List Char) : List Char :=
  qstd (digitsToNat digits)

/-- Mapping update with Python-dict semantics: replace the entry of an
existing key in place, else append the new key at the end. -/
def insertEntry : List (List Char × QueryEntry) → List Char → QueryEntry →
    List (List Char × QueryEntry)
  | [], k, v => [(k, v)]
  | p :: m, k, v => if p.1 == k then (k, v) :: m else p :: insertEntry m k v

/-- Mapping lookup (first entry with the key). -/
def lookupKey : List (List Char × QueryEntry) → List Char → Option QueryEntry
  | [], _ => none
  | p :: m, k => if p.1 == k then some p.2 else lookupKey m k

/-- Whether the mapping has an entry under `k`. -/
def hasKey (m : List (List Char × QueryEntry)) (k : List Char) : Bool :=
  m.any (fun p => p.1 == k)

/-- Each marker's query block: the raw text from its start offset up to
the next marker's start offset, or to the end for the last marker. -/
def blocksOf (raw : List Char) : List (List Char × Nat × List Char) →
    List (List Char × List Char × List Char)
  | [] => []
  | (d, s, g0) :: rest =>
    let endPos := match rest with
      | (_, s2, _) :: _ => s2
      | [] => raw.length
    (d, g0, (raw.drop s).take (endPos - s)) :: blocksOf raw rest

/-- One marker's contribution to the mapping: the first SQL statement of
its block, or nothing when the block has no match. -/
def stepQuery (m : List (List Char × QueryEntry))
    (b : List Char × List Char × List Char) : List (List Char × QueryEntry) :=
  match qSearch b.2.2 with
  | some g => insertEntry m (qstdOf b.1) ⟨labelOf b.2.1, sqlOf g⟩
  | none => m

/-- The query mapping of `extract_setup_and_queries`. -/
def extract_queries (raw : List Char) : List (List Char × QueryEntry) :=
  (blocksOf raw (findMarkers raw)).foldl stepQuery []

/-- The extractor `extract_setup_and_queries` of the source: the setup
partition of the split statements, and the marker-keyed query mapping. -/
def extract_setup_and_queries (raw : List Char) :
    List (List Char) × List (List Char × QueryEntry) :=
  (setupOf (split_mysql_statements raw), extract_queries raw)

/-- Match, at the head of `t`, of the phase-marker token as the
specification words it for the setup partition: the literal word
`Segment`, case-insensitive, followed by whitespace (at least one
character) and the number one.  This is the claim's wording; compare
`seg1At`, translated from the code's `\bSegment\s*1\b`, where the
whitespace is optional. -/
def claimSeg1At (prev : Option Char) (t : List Char) : Bool :=
  atBoundary prev &&
  match stripCI t (("segment").data) with
  | some rest =>
    (match rest with
     | c :: _ => pyIsSpace c
     | [] => false) &&
    (match rest.dropWhile pyIsSpace with
     | '1' :: rest2 => boundaryFree rest2
     | _ => false)
  | none => false

/-- Whether a statement contains the phase-marker token as the
specification words it (see `claimSeg1At`). -/
def claimContainsSeg1 (s : List Char) : Bool :=
  scanToken claimSeg1At none s

section ListLemmas

variable {α : Type} {p : α → Bool}

/-- The head of a `dropWhile` result does not satisfy the predicate. -/
theorem dropWhile_head_false {l : List α} {c : α} {t : List α}
    (h : l.dropWhile p = c :: t) : p c = false := by
  induction l with
  | nil => simp at h
  | cons a l ih =>
    rw [List.dropWhile_cons] at h
    split at h
    · exact ih h
    · next hpa =>
      injection h with h1 h2
      subst h1
      simpa using hpa

/-- `dropWhile` over a cons whose head fails the predicate. -/
theorem dropWhile_cons_false {c : α} {t : List α} (hc : p c = false) :
    (c :: t).dropWhile p = c :: t := by
  rw [List.dropWhile_cons, hc]
  simp

/-- `dropWhile` returns a suffix. -/
theorem dropWhile_eq_append (p : α → Bool) (l : List α) :
    ∃ u, l = u ++ l.dropWhile p := by
  induction l with
  | nil => exact ⟨[], rfl⟩
  | cons a l ih =>
    rw [List.dropWhile_cons]
    split
    · obtain ⟨u, hu⟩ := ih
      exact ⟨a :: u, by simpa using hu⟩
    · exact ⟨[], rfl⟩

/-- Dropping over an append whose last element fails the predicate keeps
that element at the end. -/
theorem dropWhile_append_last {c : α} (hc : p c = false) (u : List α) :
    ∃ w, (u ++ [c]).dropWhile p = w ++ [c] := by
  induction u with
  | nil => exact ⟨[], by simp [dropWhile_cons_false hc]⟩
  | cons a u ih =>
    rw [List.cons_append, List.dropWhile_cons]
    split
    · exact ih
    · exact ⟨a :: u, rfl⟩

end ListLemmas

/-- A list whose ends are not whitespace is unchanged by `pyStrip`. -/
theorem pyStrip_eq_self {l : List Char}
    (h1 : ∀ c, l.head? = some c → pyIsSpace c = false)
    (h2 : ∀ c, l.getLast? = some c → pyIsSpace c = false) :
    pyStrip l = l := by
  cases l with
  | nil => rfl
  | cons a t =>
    have ha : pyIsSpace a = false := h1 a rfl
    unfold pyStrip
    rw [dropWhile_cons_false ha]
    cases hrev : (a :: t).reverse with
    | nil => simp at hrev
    | cons d u =>
      have hd : pyIsSpace d = false := by
        apply h2
        rw [← List.head?_reverse, hrev]
        rfl
      rw [dropWhile_cons_false hd, ← hrev, List.reverse_reverse]

/-- The head of a `pyStrip` result is not whitespace. -/
theorem pyStrip_head_false {l : List Char} {c : Char} {t : List Char}
    (h : pyStrip l = c :: t) : pyIsSpace c = false := by
  unfold pyStrip at h
  set A := l.dropWhile pyIsSpace with hA
  set B := A.reverse.dropWhile pyIsSpace with hB
  have hBne : B ≠ [] := by
    intro hnil
    rw [hnil] at h
    simp at h
  have hhead : B.reverse.head? = some c := by rw [h]; rfl
  rw [List.head?_reverse] at hhead
  obtain ⟨u, hu⟩ := dropWhile_eq_append pyIsSpace A.reverse
  rw [← hB] at hu
  have hlast : A.reverse.getLast? = some c := by
    rw [hu, List.getLast?_append_of_ne_nil _ hBne, hhead]
  rw [List.getLast?_reverse] at hlast
  cases hA2 : A with
  | nil => rw [hA2] at hlast; simp at hlast
  | cons a u2 =>
    rw [hA2] at hlast
    obtain rfl : a = c := by injection hlast
    exact dropWhile_head_false (hA ▸ hA2)

/-- The last element of a `pyStrip` result is not whitespace. -/
theorem pyStrip_getLast_false {l : List Char} {c : Char}
    (h : (pyStrip l).getLast? = some c) : pyIsSpace c = false := by
  unfold pyStrip at h
  rw [List.getLast?_reverse] at h
  cases hB : (l.dropWhile pyIsSpace).reverse.dropWhile pyIsSpace with
  | nil => rw [hB] at h; simp at h
  | cons d u =>
    rw [hB] at h
    obtain rfl : d = c := by injection h
    exact dropWhile_head_false hB

/-- `pyStrip` is idempotent. -/
theorem pyStrip_idem (l : List Char) : pyStrip (pyStrip l) = pyStrip l := by
  apply pyStrip_eq_self
  · intro c hc
    cases hs : pyStrip l with
    | nil => rw [hs] at hc; simp at hc
    | cons a t =>
      rw [hs] at hc
      obtain rfl : a = c := by injection hc
      exact pyStrip_head_false hs
  · intro c hc
    exact pyStrip_getLast_false hc

/-- The single-quote flag is unchanged by a terminator character. -/
theorem singleAfter_semi (st : ScanState) : singleAfter st ';' = st.in_single := by
  unfold singleAfter
  simp [show ((';' : Char) == '\'') = false from by decide]

/-- The double-quote flag is unchanged by a terminator character. -/
theorem doubleAfter_semi (st : ScanState) : doubleAfter st ';' = st.in_double := by
  unfold doubleAfter
  simp [show ((';' : Char) == '"') = false from by decide]

/-- A scan step on a character other than the terminator only grows the
buffer: the statement list is unchanged. -/
theorem scanStep_stmts_of_ne_semi (st : ScanState) (ch : Char) (h : ch ≠ ';') :
    (scanStep st ch).stmts = st.stmts := by
  unfold scanStep
  have hb : (ch == ';') = false := by simpa using h
  rw [hb]
  simp

/-- A scan step emits either nothing or the stripped buffer. -/
theorem scanStep_stmts_cases (st : ScanState) (ch : Char) :
    (scanStep st ch).stmts = st.stmts ∨
      (scanStep st ch).stmts = st.stmts ++ [pyStrip st.buff] := by
  unfold scanStep
  split
  · exact Or.inr rfl
  · exact Or.inl rfl

/-- A scan step taken inside a quoted string (either quote flag open)
never flushes: the statement list is unchanged. -/
theorem scanStep_stmts_of_quote (st : ScanState) (ch : Char)
    (h : (st.in_single || st.in_double) = true) :
    (scanStep st ch).stmts = st.stmts := by
  by_cases hch : ch = ';'
  · subst hch
    unfold scanStep
    rw [singleAfter_semi, doubleAfter_semi]
    cases hsb : st.in_single with
    | true => simp [hsb]
    | false =>
      have hdb : st.in_double = true := by simpa [hsb] using h
      simp [hdb]
  · exact scanStep_stmts_of_ne_semi st ch hch

/-- Scanning a text with no terminator character leaves the statement
list unchanged. -/
theorem scanChars_stmts_of_no_semi :
    ∀ (cs : List Char) (st : ScanState), (∀ c ∈ cs, c ≠ ';') →
      (scanChars st cs).stmts = st.stmts := by
  intro cs
  induction cs with
  | nil => intro st _; rfl
  | cons c cs ih =>
    intro st h
    show (scanChars (scanStep st c) cs).stmts = st.stmts
    rw [ih (scanStep st c) (fun d hd => h d (List.mem_cons_of_mem c hd)),
      scanStep_stmts_of_ne_semi st c (h c (List.mem_cons_self c cs))]

/-- Every statement the scan accumulates is a stripped buffer. -/
theorem scanChars_stmts_stripped :
    ∀ (cs : List Char) (st : ScanState),
      (∀ s ∈ st.stmts, pyStrip s = s) →
      ∀ s ∈ (scanChars st cs).stmts, pyStrip s = s := by
  intro cs
  induction cs with
  | nil => intro st h; exact h
  | cons c cs ih =>
    intro st h
    apply ih
    intro s hs
    rcases scanStep_stmts_cases st c with hc | hc
    · rw [hc] at hs
      exact h s hs
    · rw [hc] at hs
      rcases List.mem_append.mp hs with h1 | h2
      · exact h s h1
      · rw [List.mem_singleton.mp h2]
        exact pyStrip_idem st.buff

/-- Every element of `finishScan` is a previously accumulated statement
or the stripped tail, and is non-blank. -/
theorem mem_finishScan {st : ScanState} {s : List Char} (h : s ∈ finishScan st) :
    (pyStrip s).isEmpty = false ∧ (s ∈ st.stmts ∨ s = pyStrip st.buff) := by
  unfold finishScan at h
  rw [List.mem_filter] at h
  obtain ⟨hmem, hfilter⟩ := h
  refine ⟨by simpa using hfilter, ?_⟩
  split at hmem
  · exact Or.inl hmem
  · split at hmem
    · exact Or.inl hmem
    · rcases List.mem_append.mp hmem with h1 | h2
      · exact Or.inl h1
      · exact Or.inr (List.mem_singleton.mp h2)

/-- Every statement the splitter returns is non-empty and trimmed. -/
theorem split_mysql_statements_trimmed (raw : List Char) (s : List Char)
    (h : s ∈ split_mysql_statements raw) : s ≠ [] ∧ pyStrip s = s := by
  unfold split_mysql_statements at h
  obtain ⟨hne, hmem⟩ := mem_finishScan h
  have hstrip : pyStrip s = s := by
    rcases hmem with h1 | h2
    · exact scanChars_stmts_stripped _ initScan (by intro s hs; simp [initScan] at hs) s h1
    · rw [h2]
      exact pyStrip_idem _
  refine ⟨?_, hstrip⟩
  intro hnil
  rw [hnil] at hstrip hne
  rw [hstrip] at hne
  simp at hne

/-- The result of `rstripSemi` never ends with a terminator. -/
theorem rstripSemi_getLast_ne (l : List Char) (c : Char)
    (h : (rstripSemi l).getLast? = some c) : c ≠ ';' := by
  unfold rstripSemi at h
  rw [List.getLast?_reverse] at h
  cases hB : l.reverse.dropWhile (fun c => c == ';') with
  | nil => rw [hB] at h; simp at h
  | cons d u =>
    rw [hB] at h
    obtain rfl : d = c := by injection h
    have := dropWhile_head_false hB
    simpa using this

/-- `rstripSemi` keeps a non-terminator head in place. -/
theorem rstripSemi_cons_of_ne (c : Char) (t : List Char) (h : c ≠ ';') :
    ∃ w, rstripSemi (c :: t) = c :: w := by
  unfold rstripSemi
  rw [List.reverse_cons]
  obtain ⟨w, hw⟩ :=
    dropWhile_append_last (p := fun c => c == ';') (by simpa using h) t.reverse
  rw [hw, List.reverse_append]
  exact ⟨w.reverse, rfl⟩

/-- The span `takeThroughSemi` returns is non-empty and ends with the
terminator. -/
theorem takeThroughSemi_shape :
    ∀ (u v : List Char), takeThroughSemi u = some v →
      v ≠ [] ∧ v.getLast? = some ';' := by
  intro u
  induction u with
  | nil => intro v h; simp [takeThroughSemi] at h
  | cons c rest ih =>
    intro v h
    unfold takeThroughSemi at h
    split at h
    · next hc =>
      obtain rfl : [c] = v := Option.some.inj h
      refine ⟨by simp, ?_⟩
      simpa using (by simpa using hc : c = ';')
    · next hc =>
      cases hrec : takeThroughSemi rest with
      | none => rw [hrec] at h; simp at h
      | some v2 =>
        rw [hrec] at h
        rw [Option.map_some'] at h
        obtain rfl : c :: v2 = v := Option.some.inj h
        obtain ⟨hne, hlast⟩ := ih v2 hrec
        refine ⟨by simp, ?_⟩
        rw [show c :: v2 = [c] ++ v2 from rfl, List.getLast?_append_of_ne_nil _ hne]
        exact hlast

/-- A successful case-insensitive match of a non-empty pattern pins the
first character of the text. -/
theorem stripCI_cons (t : List Char) (p : Char) (ps : List Char) (r : List Char)
    (h : stripCI t (p :: ps) = some r) :
    ∃ c t2, t = c :: t2 ∧ c.toLower = p := by
  cases t with
  | nil => simp [stripCI] at h
  | cons c t2 =>
    unfold stripCI at h
    split at h
    · next hc => exact ⟨c, t2, rfl, by simpa using hc⟩
    · simp at h

/-- The `SELECT` branch of the query pattern returns a span that starts
with the matched text's first character and ends with a terminator. -/
theorem trySelectBr_shape (t g : List Char) (h : trySelectBr t = some g) :
    ∃ c w, t.head? = some c ∧ c.toLower = 's' ∧ g = c :: w ∧
      g.getLast? = some ';' := by
  unfold trySelectBr at h
  split at h
  · next rest hs =>
    split at h
    · split at h
      · next tail htail =>
        have h := Option.some.inj h
        obtain ⟨c, t2, rfl, hlow⟩ := stripCI_cons t 's' _ rest hs
        obtain ⟨hne, hlast⟩ := takeThroughSemi_shape rest tail htail
        refine ⟨c, t2.take 5 ++ tail, rfl, hlow, ?_, ?_⟩
        · rw [← h]
          rfl
        · rw [← h, List.getLast?_append_of_ne_nil _ hne]
          exact hlast
      · simp at h
    · simp at h
  · simp at h

/-- The `WITH` branch of the query pattern returns a span that starts
with the matched text's first character and ends with a terminator. -/
theorem tryWith_shape (t g : List Char) (h : tryWith t = some g) :
    ∃ c w, t.head? = some c ∧ c.toLower = 'w' ∧ g = c :: w ∧
      g.getLast? = some ';' := by
  unfold tryWith at h
  split at h
  · next rest2 hs =>
    split at h
    · split at h
      · simp at h
      · next r0 rest3 =>
        split at h
        · next j hj =>
          split at h
          · next tail htail =>
            have h := Option.some.inj h
            obtain ⟨c, t2, rfl, hlow⟩ := stripCI_cons t 'w' _ _ hs
            obtain ⟨hne, hlast⟩ := takeThroughSemi_shape _ tail htail
            have h11 : 4 + 1 + j + 6 = (4 + j + 6) + 1 := by omega
            refine ⟨c, t2.take (4 + j + 6) ++ tail, rfl, hlow, ?_, ?_⟩
            · rw [← h, h11, List.take_succ_cons, List.cons_append]
            · rw [← h, List.getLast?_append_of_ne_nil _ hne]
              exact hlast
          · simp at h
        · simp at h
    · simp at h
  · simp at h

/-- Any match of the query pattern starts with a `SELECT` or `WITH`
keyword character and ends with a terminator. -/
theorem qMatchAt_shape (t g : List Char) (h : qMatchAt t = some g) :
    ∃ c w, g = c :: w ∧ (c.toLower = 's' ∨ c.toLower = 'w') ∧
      g.getLast? = some ';' := by
  unfold qMatchAt at h
  split at h
  · next g2 hsel =>
    obtain rfl : g2 = g := Option.some.inj h
    obtain ⟨c, w, _, hlow, hg, hlast⟩ := trySelectBr_shape t _ hsel
    exact ⟨c, w, hg, Or.inl hlow, hlast⟩
  · obtain ⟨c, w, _, hlow, hg, hlast⟩ := tryWith_shape t g h
    exact ⟨c, w, hg, Or.inr hlow, hlast⟩

/-- The shape transfers to the position scan `qSearch`. -/
theorem qSearch_shape (b g : List Char) (h : qSearch b = some g) :
    ∃ c w, g = c :: w ∧ (c.toLower = 's' ∨ c.toLower = 'w') ∧
      g.getLast? = some ';' := by
  unfold qSearch at h
  suffices hgen : ∀ (t : List Char) (prev : Option Char),
      qSearchAux prev t = some g →
      ∃ c w, g = c :: w ∧ (c.toLower = 's' ∨ c.toLower = 'w') ∧
        g.getLast? = some ';' from hgen b none h
  intro t
  induction t with
  | nil => intro prev h2; simp [qSearchAux] at h2
  | cons c rest ih =>
    intro prev h2
    unfold qSearchAux at h2
    split at h2
    · cases hm : qMatchAt (c :: rest) with
      | some g2 =>
        rw [hm] at h2
        obtain rfl : g2 = g := Option.some.inj h2
        exact qMatchAt_shape _ _ hm
      | none =>
        rw [hm] at h2
        exact ih (some c) h2
    · exact ih (some c) h2

/-- A character whose lowercase form is a keyword letter is not
whitespace and not a terminator. -/
theorem keyword_head_facts (c : Char) (h : c.toLower = 's' ∨ c.toLower = 'w') :
    pyIsSpace c = false ∧ c ≠ ';' := by
  constructor
  · by_contra hsp
    have hsp2 : pyIsSpace c = true := by
      cases hx : pyIsSpace c
      · exact absurd hx hsp
      · rfl
    have : c = ' ' ∨ c = '\t' ∨ c = '\n' ∨ c = '\r' ∨ c = '\x0b' ∨ c = '\x0c' := by
      unfold pyIsSpace at hsp2
      rcases Bool.or_eq_true_iff.mp hsp2 with h5 | h6
      rotate_left
      · exact Or.inr (Or.inr (Or.inr (Or.inr (Or.inr (by simpa using h6)))))
      rcases Bool.or_eq_true_iff.mp h5 with h5 | h6
      rotate_left
      · exact Or.inr (Or.inr (Or.inr (Or.inr (Or.inl (by simpa using h6)))))
      rcases Bool.or_eq_true_iff.mp h5 with h5 | h6
      rotate_left
      · exact Or.inr (Or.inr (Or.inr (Or.inl (by simpa using h6))))
      rcases Bool.or_eq_true_iff.mp h5 with h5 | h6
      rotate_left
      · exact Or.inr (Or.inr (Or.inl (by simpa using h6)))
      rcases Bool.or_eq_true_iff.mp h5 with h5 | h6
      · exact Or.inl (by simpa using h5)
      · exact Or.inr (Or.inl (by simpa using h6))
    rcases this with rfl | rfl | rfl | rfl | rfl | rfl <;>
      rcases h with h | h <;> simp at h
  · intro hc
    subst hc
    rcases h with h | h <;> simp at h

/-- Membership after a dict-style insert: the new entry or an old one. -/
theorem mem_insertEntry :
    ∀ (m : List (List Char × QueryEntry)) (k : List Char) (v : QueryEntry) (x),
      x ∈ insertEntry m k v → x = (k, v) ∨ x ∈ m := by
  intro m
  induction m with
  | nil =>
    intro k v x hx
    simp [insertEntry] at hx
    exact Or.inl hx
  | cons p m ih =>
    intro k v x hx
    unfold insertEntry at hx
    split at hx
    · rcases List.mem_cons.mp hx with h1 | h2
      · exact Or.inl h1
      · exact Or.inr (List.mem_cons_of_mem p h2)
    · rcases List.mem_cons.mp hx with h1 | h2
      · exact Or.inr (h1 ▸ List.mem_cons_self p m)
      · rcases ih k v x h2 with h3 | h4
        · exact Or.inl h3
        · exact Or.inr (List.mem_cons_of_mem p h4)

/-- Every entry the extractor's fold produces is an initial entry or is
built from a successful query match. -/
theorem mem_foldl_stepQuery :
    ∀ (bs : List (List Char × List Char × List Char))
      (m : List (List Char × QueryEntry)) (x), x ∈ bs.foldl stepQuery m →
      x ∈ m ∨ ∃ b g, qSearch b = some g ∧ x.2.sql = sqlOf g := by
  intro bs
  induction bs with
  | nil => intro m x hx; exact Or.inl hx
  | cons b bs ih =>
    intro m x hx
    rw [List.foldl_cons] at hx
    rcases ih (stepQuery m b) x hx with h1 | h2
    · unfold stepQuery at h1
      split at h1
      · next g hg =>
        rcases mem_insertEntry _ _ _ x h1 with h3 | h4
        · exact Or.inr ⟨b.2.2, g, hg, by rw [h3]⟩
        · exact Or.inl h4
      · exact Or.inl h1
    · exact Or.inr h2

/-- The sql of every query entry the extractor produces is non-empty,
starts with a non-whitespace character, and does not end with the
terminator. -/
theorem extract_queries_sql_shape (raw : List Char) (k : List Char)
    (e : QueryEntry) (h : (k, e) ∈ extract_queries raw) :
    e.sql ≠ [] ∧ e.sql.getLast? ≠ some ';' ∧
      (∀ c, e.sql.head? = some c → pyIsSpace c = false) := by
  unfold extract_queries at h
  rcases mem_foldl_stepQuery _ _ _ h with h1 | h2
  · simp at h1
  · obtain ⟨b, g, hg, hsql⟩ := h2
    obtain ⟨c, w, rfl, hlow, hlast⟩ := qSearch_shape b g hg
    obtain ⟨hcsp, hcsemi⟩ := keyword_head_facts c hlow
    have hstrip : pyStrip (c :: w) = c :: w := by
      apply pyStrip_eq_self
      · intro d hd
        obtain rfl : c = d := by injection hd
        exact hcsp
      · intro d hd
        rw [hlast] at hd
        obtain rfl : (';' : Char) = d := by injection hd
        decide
    obtain ⟨w2, hw2⟩ := rstripSemi_cons_of_ne c w hcsemi
    have hsql3 : e.sql = rstripSemi (c :: w) := by
      rw [hsql]
      unfold sqlOf
      rw [hstrip]
    have hsql2 : e.sql = c :: w2 := by rw [hsql3, hw2]
    refine ⟨by rw [hsql2]; simp, ?_, ?_⟩
    · intro hbad
      rw [hsql3] at hbad
      exact rstripSemi_getLast_ne (c :: w) ';' hbad rfl
    · intro d hd
      rw [hsql2] at hd
      obtain rfl : c = d := by injection hd
      exact hcsp

/-- Key membership after a dict-style insert. -/
theorem hasKey_insertEntry :
    ∀ (m : List (List Char × QueryEntry)) (k : List Char) (v : QueryEntry)
      (k2 : List Char),
      hasKey (insertEntry m k v) k2 = ((k == k2) || hasKey m k2) := by
  intro m
  induction m with
  | nil =>
    intro k v k2
    simp [insertEntry, hasKey]
  | cons p m ih =>
    intro k v k2
    unfold insertEntry
    split
    · next hp =>
      unfold hasKey at *
      simp only [List.any_cons]
      rw [show p.1 = k from by simpa using hp,
        ← Bool.or_assoc, Bool.or_self]
    · unfold hasKey at *
      simp only [List.any_cons]
      rw [ih k v k2]
      rw [Bool.or_left_comm]

/-- Looking up the key just inserted returns the new entry. -/
theorem lookupKey_insertEntry_self :
    ∀ (m : List (List Char × QueryEntry)) (k : List Char) (v : QueryEntry),
      lookupKey (insertEntry m k v) k = some v := by
  intro m
  induction m with
  | nil =>
    intro k v
    simp [insertEntry, lookupKey]
  | cons p m ih =>
    intro k v
    unfold insertEntry
    split
    · simp [lookupKey]
    · next hp =>
      unfold lookupKey
      rw [if_neg (by simpa using hp)]
      exact ih k v

/-- The key set accumulated by the extractor's fold: the initial keys
together with the normalized key of every block in which a query match
was found. -/
theorem hasKey_foldl_stepQuery :
    ∀ (bs : List (List Char × List Char × List Char))
      (m : List (List Char × QueryEntry)) (k : List Char),
      hasKey (bs.foldl stepQuery m) k =
        (hasKey m k ||
          bs.any (fun b => (qSearch b.2.2).isSome && (qstdOf b.1 == k))) := by
  intro bs
  induction bs with
  | nil => intro m k; simp
  | cons b bs ih =>
    intro m k
    rw [List.foldl_cons, ih (stepQuery m b) k, List.any_cons]
    unfold stepQuery
    cases hq : qSearch b.2.2 with
    | none => simp
    | some g =>
      rw [hasKey_insertEntry]
      simp only [Option.isSome_some, Bool.true_and]
      rw [Bool.or_comm (qstdOf b.1 == k) (hasKey m k), Bool.or_assoc]

/-- Unfolding equation for the setup partition. -/
theorem setupOf_cons (x : List Char) (l : List (List Char)) :
    setupOf (x :: l) = if containsSeg1 x then [] else x :: setupOf l := by
  by_cases hx : containsSeg1 x = true
  · rw [if_pos hx]
    unfold setupOf
    rw [show seg1Idx (x :: l) = some 0 from by unfold seg1Idx; rw [if_pos hx]]
    rfl
  · rw [if_neg hx]
    have hstep : seg1Idx (x :: l) = (seg1Idx l).map (· + 1) := by
      simp [seg1Idx, hx]
    unfold setupOf
    rw [hstep]
    cases hi : seg1Idx l with
    | none => simp
    | some i =>
      simp only [Option.map_some']
      rw [List.take_succ_cons]

/-- The setup partition is the prefix of the statement sequence strictly
before the first statement containing the Segment-1 marker: its elements
are all marker-free, and it is either the whole sequence (none found) or
stops exactly at a statement containing the marker. -/
theorem setupOf_spec :
    ∀ l : List (List Char),
      (setupOf l).all (fun s => !containsSeg1 s) = true ∧
        (setupOf l = l ∨
          ∃ s rest, l = setupOf l ++ s :: rest ∧ containsSeg1 s = true) := by
  intro l
  induction l with
  | nil => exact ⟨rfl, Or.inl rfl⟩
  | cons x l ih =>
    rw [setupOf_cons]
    by_cases hx : containsSeg1 x = true
    · rw [if_pos hx]
      exact ⟨rfl, Or.inr ⟨x, l, rfl, hx⟩⟩
    · rw [if_neg hx]
      obtain ⟨ihall, ihcases⟩ := ih
      constructor
      · rw [List.all_cons, ihall]
        simp [hx]
      · rcases ihcases with h1 | ⟨s, rest, hsplit, hs⟩
        · exact Or.inl (by rw [h1])
        · exact Or.inr ⟨s, rest, by rw [List.cons_append, ← hsplit], hs⟩

/-- The suffix `findCloser` returns is no longer than its input. -/
theorem findCloser_length : ∀ (cs r : List Char), findCloser cs = some r →
    r.length ≤ cs.length := by
  intro cs
  induction cs with
  | nil => intro r h; simp [findCloser] at h
  | cons c cs ih =>
    intro r h
    cases cs with
    | nil => simp [findCloser] at h
    | cons d rest =>
      unfold findCloser at h
      split at h
      · obtain rfl : rest = r := Option.some.inj h
        simp
        omega
      · have := ih r h
        simp at this ⊢
        omega

/-- Fuel monotonicity for `subInlineF`: above the input length, one more
unit of fuel changes nothing. -/
theorem subInlineF_succ : ∀ (f : Nat) (cs : List Char), cs.length ≤ f →
    subInlineF f cs = subInlineF (f + 1) cs := by
  intro f
  induction f with
  | zero =>
    intro cs h
    obtain rfl : cs = [] := List.length_eq_zero.mp (Nat.le_zero.mp h)
    rfl
  | succ f ih =>
    intro cs h
    cases cs with
    | nil => rfl
    | cons c cs2 =>
      cases cs2 with
      | nil => rfl
      | cons d rest =>
        show subInlineF (f + 1) (c :: d :: rest) = subInlineF (f + 2) (c :: d :: rest)
        simp only [subInlineF]
        by_cases hcd : (c == '/' && d == '*') = true
        · rw [if_pos hcd, if_pos hcd]
          cases hf : findCloser rest with
          | some rest2 =>
            have hlen : rest2.length ≤ f := by
              have h1 := findCloser_length rest rest2 hf
              simp at h
              omega
            show ' ' :: subInlineF f rest2 = ' ' :: subInlineF (f + 1) rest2
            rw [ih rest2 hlen]
          | none => rfl
        · rw [if_neg (by simpa using hcd), if_neg (by simpa using hcd)]
          have hlen : (d :: rest).length ≤ f := by
            simp at h ⊢
            omega
          rw [ih (d :: rest) hlen]

/-- Any amount of surplus fuel computes `subInline`. -/
theorem subInlineF_add (cs : List Char) : ∀ (k : Nat),
    subInlineF (cs.length + k) cs = subInline cs := by
  intro k
  induction k with
  | zero => rfl
  | succ k ih =>
    rw [show cs.length + (k + 1) = cs.length + k + 1 from by omega,
      ← subInlineF_succ (cs.length + k) cs (by omega)]
    exact ih

/-- Sufficient fuel computes `subInline`. -/
theorem subInlineF_of_le (f : Nat) (cs : List Char) (h : cs.length ≤ f) :
    subInlineF f cs = subInline cs := by
  obtain ⟨k, rfl⟩ : ∃ k, f = cs.length + k := ⟨f - cs.length, by omega⟩
  exact subInlineF_add cs k

/-- Unfolding equation for `subInline` on two or more characters. -/
theorem subInline_cons₂ (c d : Char) (rest : List Char) :
    subInline (c :: d :: rest) =
      (if c == '/' && d == '*' then
        (match findCloser rest with
         | some rest2 => ' ' :: subInline rest2
         | none => c :: d :: rest)
      else c :: subInline (d :: rest)) := by
  have h1 : subInline (c :: d :: rest) = subInlineF (rest.length + 1 + 1) (c :: d :: rest) := by
    unfold subInline
    simp
  rw [h1]
  simp only [subInlineF]
  by_cases hcd : (c == '/' && d == '*') = true
  · rw [if_pos hcd, if_pos hcd]
    cases hf : findCloser rest with
    | some rest2 =>
      show ' ' :: subInlineF (rest.length + 1) rest2 = ' ' :: subInline rest2
      rw [subInlineF_of_le _ rest2
        (Nat.le_trans (findCloser_length rest rest2 hf) (Nat.le_succ _))]
    | none => rfl
  · rw [if_neg (by simpa using hcd), if_neg (by simpa using hcd),
      subInlineF_of_le _ (d :: rest) (by simp)]

/-- A prefix occurrence is a substring occurrence. -/
theorem containsSub_of_isPrefixOf {l pat : List Char}
    (h : pat.isPrefixOf l = true) : containsSub l pat = true := by
  unfold containsSub
  cases l with
  | nil => simpa using h
  | cons c t =>
    rw [List.tails_cons, List.any_cons, h]
    rfl

/-- A substring of the tail is a substring. -/
theorem containsSub_tail {c : Char} {l pat : List Char}
    (h : containsSub (c :: l) pat = false) : containsSub l pat = false := by
  unfold containsSub at *
  rw [List.tails_cons, List.any_cons] at h
  exact (Bool.or_eq_false_iff.mp h).2

/-- A closer-free text followed by an explicit closer: `findCloser`
stops exactly at that closer. -/
theorem findCloser_append : ∀ (mid post : List Char),
    containsSub mid (("*/").data) = false →
    findCloser (mid ++ '*' :: '/' :: post) = some post := by
  intro mid
  induction mid with
  | nil => intro post _; rfl
  | cons a mid ih =>
    intro post h
    cases mid with
    | nil =>
      show findCloser (a :: '*' :: '/' :: post) = some post
      unfold findCloser
      rw [if_neg (by simp [show (('*' : Char) == '/') = false from by decide])]
      rfl
    | cons b mid2 =>
      show findCloser (a :: b :: (mid2 ++ '*' :: '/' :: post)) = some post
      have hnab : (a == '*' && b == '/') = false := by
        by_contra hx
        have hab : (a == '*' && b == '/') = true := by
          cases hy : (a == '*' && b == '/')
          · exact absurd hy hx
          · rfl
        obtain ⟨ha, hb⟩ := Bool.and_eq_true_iff.mp hab
        obtain rfl : a = '*' := by simpa using ha
        obtain rfl : b = '/' := by simpa using hb
        have hpre : containsSub ('*' :: '/' :: mid2) (("*/").data) = true := by
          apply containsSub_of_isPrefixOf
          show (['*', '/'] : List Char).isPrefixOf ('*' :: '/' :: mid2) = true
          simp [List.isPrefixOf]
        rw [hpre] at h
        simp at h
      unfold findCloser
      rw [if_neg (by simp [hnab])]
      exact ih post (containsSub_tail h)

/-- A same-line block comment is replaced by a single space, preserving
the text on either side: the general shape of the inline substitution
when the text before the opener contains no opener and the comment body
contains no closer. -/
theorem subInline_block :
    ∀ (pre mid post : List Char), containsSub pre (("/*").data) = false →
      containsSub mid (("*/").data) = false →
      subInline (pre ++ '/' :: '*' :: (mid ++ '*' :: '/' :: post)) =
        pre ++ ' ' :: subInline post := by
  intro pre
  induction pre with
  | nil =>
    intro mid post _ hmid
    rw [List.nil_append, List.nil_append, subInline_cons₂,
      if_pos (by decide), findCloser_append mid post hmid]
  | cons a pre ih =>
    intro mid post hpre hmid
    cases pre with
    | nil =>
      show subInline (a :: '/' :: '*' :: (mid ++ '*' :: '/' :: post)) =
        a :: ' ' :: subInline post
      rw [subInline_cons₂,
        if_neg (by simp [show (('/' : Char) == '*') = false from by decide])]
      have h0 := ih mid post rfl hmid
      rw [List.nil_append] at h0
      rw [h0]
      rfl
    | cons b pre2 =>
      show subInline (a :: b :: (pre2 ++ '/' :: '*' :: (mid ++ '*' :: '/' :: post))) =
        a :: b :: pre2 ++ ' ' :: subInline post
      rw [subInline_cons₂]
      have hnab : (a == '/' && b == '*') = false := by
        by_contra hx
        have hab : (a == '/' && b == '*') = true := by
          cases hy : (a == '/' && b == '*')
          · exact absurd hy hx
          · rfl
        obtain ⟨ha, hb⟩ := Bool.and_eq_true_iff.mp hab
        obtain rfl : a = '/' := by simpa using ha
        obtain rfl : b = '*' := by simpa using hb
        have hpre2 : containsSub ('/' :: '*' :: pre2) (("/*").data) = true := by
          apply containsSub_of_isPrefixOf
          show (['/', '*'] : List Char).isPrefixOf ('/' :: '*' :: pre2) = true
          simp [List.isPrefixOf]
        rw [hpre2] at hpre
        simp at hpre
      rw [if_neg (by simp [hnab])]
      have h0 := ih mid post (containsSub_tail hpre) hmid
      rw [show b :: (pre2 ++ '/' :: '*' :: (mid ++ '*' :: '/' :: post)) =
        (b :: pre2) ++ '/' :: '*' :: (mid ++ '*' :: '/' :: post) from rfl, h0]
      rfl

/-- Claim C1: a statement terminator inside a single- or double-quoted
string is inert — while either quote flag is open no scan step produces
a statement boundary — and the example input splits into exactly the two
expected statements. -/
theorem C1_quote_safety :
    (∀ (st : ScanState) (ch : Char), (st.in_single || st.in_double) = true →
      (scanStep st ch).stmts = st.stmts) ∧
    split_mysql_statements (("SELECT ';' ; SELECT 1;").data) =
      [(("SELECT ';'").data), (("SELECT 1").data)] :=
  ⟨scanStep_stmts_of_quote, by decide⟩

/-- Witness for C1 at a concrete state: a terminator read while the
single-quote flag is open emits no statement. -/
theorem C1_quote_safety_witness :
    (scanStep ⟨[], [], true, false, false⟩ ';').stmts = [] :=
  C1_quote_safety.1 ⟨[], [], true, false, false⟩ ';' (by decide)

/-- Claim C2: a discovered marker is keyed by its numeric part
zero-padded to two digits and never truncated, later markers overwrite
earlier ones with the same normalized key, and the example marker line
is discovered with numeric part `1`, label `Q1 - Find something`, key
`Q01`, and sql `SELECT 1`. -/
theorem C2_marker_normalization :
    findMarkers (("-- Q1 - Find something\nSELECT 1;").data) =
      [((("1").data), 0, (("-- Q1 - Find something").data))] ∧
    extract_queries (("-- Q1 - Find something\nSELECT 1;").data) =
      [((("Q01").data), ⟨(("Q1 - Find something").data), (("SELECT 1").data)⟩)] ∧
    extract_queries (("-- Q7 a\nSELECT 7;\n-- Q07 b\nSELECT 8;").data) =
      [((("Q07").data), ⟨(("Q07 b").data), (("SELECT 8").data)⟩)] ∧
    (∀ n : Nat, 100 ≤ n → qstd n = 'Q' :: natDigits n) ∧
    (∀ (m : List (List Char × QueryEntry)) (k : List Char) (v : QueryEntry),
      lookupKey (insertEntry m k v) k = some v) := by
  refine ⟨by decide, by decide, by decide, ?_, lookupKey_insertEntry_self⟩
  intro n h
  unfold qstd
  rw [if_neg (by omega)]

/-- Witness for C2's quantified parts at concrete inputs: a number at
least 100 keeps its natural width, and an insert is observable by
lookup. -/
theorem C2_marker_normalization_witness :
    qstd 100 = 'Q' :: natDigits 100 ∧
    lookupKey (insertEntry [] (("Q01").data) ⟨[], []⟩) (("Q01").data) =
      some ⟨[], []⟩ :=
  ⟨C2_marker_normalization.2.2.2.1 100 (by decide),
   C2_marker_normalization.2.2.2.2 [] (("Q01").data) ⟨[], []⟩⟩

/-- Counterexample to claim C3 as stated: in `Segment1;A;` no statement
contains the claimed token (`Segment`, whitespace, then one — the
whitespace being required), so by the claim SetupStatements would be the
entire two-statement sequence, yet the code's SetupStatements is empty:
the code's `\bSegment\s*1\b` needs no whitespace. -/
theorem C3_counterexample :
    ((split_mysql_statements (("Segment1;A;").data)).all
      (fun s => !claimContainsSeg1 s)) = true ∧
    split_mysql_statements (("Segment1;A;").data) =
      [(("Segment1").data), (("A").data)] ∧
    (extract_setup_and_queries (("Segment1;A;").data)).1 = [] := by
  refine ⟨by decide, by decide, by decide⟩

/-- Claim C3 as amended: with the phase-marker token read as `Segment`,
case-insensitive, followed by optional whitespace and the digit one as a
whole word (the code's `\bSegment\s*1\b`), SetupStatements is exactly
the prefix of the split sequence strictly before the first statement
containing the token, and the whole sequence when none does; the spec's
statement-level example holds. -/
theorem C3_setup_partition_amended :
    (∀ raw : List Char,
      ((extract_setup_and_queries raw).1.all (fun s => !containsSeg1 s)) = true ∧
      ((extract_setup_and_queries raw).1 = split_mysql_statements raw ∨
        ∃ s rest, split_mysql_statements raw =
          (extract_setup_and_queries raw).1 ++ s :: rest ∧
            containsSeg1 s = true)) ∧
    setupOf [(("A").data), (("B").data), (("x Segment 1 y").data),
        (("C").data), (("D").data)] =
      [(("A").data), (("B").data)] := by
  constructor
  · intro raw
    exact setupOf_spec (split_mysql_statements raw)
  · decide

/-- Counterexample to claim C4 as stated: the splitter output for the
unterminated-quote input `'a;` is a statement ending in the terminator,
and the extractor keeps the whitespace standing before a terminator, so
its sql `SELECT 1 ` differs from its own trim. -/
theorem C4_counterexample :
    split_mysql_statements (("'a;").data) = [(("'a;").data)] ∧
    ((("'a;").data).getLast? = some ';') ∧
    lookupKey (extract_queries (("-- Q1 x\nSELECT 1 ;").data)) (("Q01").data) =
      some ⟨(("Q1 x").data), (("SELECT 1 ").data)⟩ ∧
    pyStrip (("SELECT 1 ").data) ≠ ("SELECT 1 ").data := by
  refine ⟨by decide, by decide, by decide, by decide⟩

/-- Claim C4 as amended: every statement the splitter returns is
non-empty and equal to its own whitespace trim (though it can end in an
in-string terminator when the input ends inside an unterminated quote),
and every extracted sql is non-empty, starts with a non-whitespace
character, and does not end with a terminator (though it can retain
whitespace that stood before the stripped terminator). -/
theorem C4_statement_invariants_amended :
    (∀ (raw s : List Char), s ∈ split_mysql_statements raw →
      s ≠ [] ∧ pyStrip s = s) ∧
    (∀ (raw k : List Char) (e : QueryEntry), (k, e) ∈ extract_queries raw →
      e.sql ≠ [] ∧ e.sql.getLast? ≠ some ';' ∧
        ∀ c, e.sql.head? = some c → pyIsSpace c = false) :=
  ⟨split_mysql_statements_trimmed, extract_queries_sql_shape⟩

/-- Witness for C4's amended theorem at concrete inputs. -/
theorem C4_statement_invariants_amended_witness :
    ((("A").data) ≠ [] ∧ pyStrip (("A").data) = ("A").data) ∧
    ((("SELECT 1").data) ≠ [] ∧
      ((("SELECT 1").data)).getLast? ≠ some ';' ∧
      ∀ c, ((("SELECT 1").data)).head? = some c → pyIsSpace c = false) :=
  ⟨C4_statement_invariants_amended.1 (("A;").data) (("A").data) (by decide),
   C4_statement_invariants_amended.2 (("-- Q1 - Find something\nSELECT 1;").data)
     (("Q01").data) ⟨(("Q1 - Find something").data), (("SELECT 1").data)⟩
     (by decide)⟩

/-- Counterexample to claim C5 as stated: the line `-- Q1 a;b` is kept
verbatim by the preservation rule yet contains a terminator, and it does
produce a statement boundary — the input splits into two statements with
the boundary inside the preserved line. -/
theorem C5_counterexample :
    keepLine (("-- Q1 a;b").data) = true ∧
    (';' ∈ (("-- Q1 a;b").data)) ∧
    split_mysql_statements (("-- Q1 a;b").data) =
      [(("-- Q1 a").data), (("b").data)] := by
  refine ⟨by decide, by decide, by decide⟩

/-- Claim C5 as amended: a preserved marker line is inert with respect
to statement boundaries whenever it contains no terminator character —
scanning it from any state leaves the statement list unchanged; marker
lines are, however, not guaranteed to lack terminators. -/
theorem C5_marker_inert_amended :
    ∀ (st : ScanState) (l : List Char), keepLine l = true →
      (∀ c ∈ l, c ≠ ';') → (scanChars st l).stmts = st.stmts :=
  fun st l _ h => scanChars_stmts_of_no_semi l st h

/-- Witness for C5's amended theorem at a concrete preserved line. -/
theorem C5_marker_inert_amended_witness :
    (scanChars initScan (("-- Q1 x").data)).stmts = [] :=
  C5_marker_inert_amended initScan (("-- Q1 x").data) (by decide) (by decide)

/-- Claim C6: the example input with a same-line block comment splits
into the single statement `A   B` with no comment remnants, and in
general a same-line block comment is replaced by one space with the
surrounding text preserved. -/
theorem C6_block_comment_removal :
    split_mysql_statements (("A /* x; y */ B;").data) = [(("A   B").data)] ∧
    containsSub (("A   B").data) (("/*").data) = false ∧
    containsSub (("A   B").data) (("*/").data) = false ∧
    containsSub (("A   B").data) (("x; y").data) = false ∧
    (∀ pre mid post : List Char, containsSub pre (("/*").data) = false →
      containsSub mid (("*/").data) = false →
      subInline (pre ++ '/' :: '*' :: (mid ++ '*' :: '/' :: post)) =
        pre ++ ' ' :: subInline post) :=
  ⟨by decide, by decide, by decide, by decide, subInline_block⟩

/-- Witness for C6's general part at the example's own pieces. -/
theorem C6_block_comment_removal_witness :
    subInline ((("A ").data) ++ '/' :: '*' ::
        (((" x; y ").data) ++ '*' :: '/' :: ((" B;").data))) =
      (("A ").data) ++ ' ' :: subInline ((" B;").data) :=
  C6_block_comment_removal.2.2.2.2 (("A ").data) ((" x; y ").data)
    ((" B;").data) (by decide) (by decide)

/-- Claim C7: a marker whose block has no query match contributes
nothing, and the key set of the produced mapping is exactly the set of
normalized keys of the blocks in which a match was found. -/
theorem C7_skip_and_keyset :
    ∀ (raw k : List Char),
      hasKey (extract_queries raw) k =
        (blocksOf raw (findMarkers raw)).any
          (fun b => (qSearch b.2.2).isSome && (qstdOf b.1 == k)) := by
  intro raw k
  unfold extract_queries
  rw [hasKey_foldl_stepQuery]
  simp [hasKey]

/-- Claim C8: both components are total functions of the input text —
the embedding returns a result for every input — and malformed inputs
(unterminated quote, unmatched block-comment delimiters, a marker with
no query) degrade to smaller or empty results rather than failing. -/
theorem C8_totality :
    (∀ raw : List Char, ∃ p, extract_setup_and_queries raw = p) ∧
    split_mysql_statements (("'abc").data) = [(("'abc").data)] ∧
    split_mysql_statements (("/* junk").data) = [] ∧
    split_mysql_statements (("*/ x;").data) = [(("*/ x").data)] ∧
    extract_queries (("-- Q5 x\n").data) = [] :=
  ⟨fun raw => ⟨_, rfl⟩, by decide, by decide, by decide, by decide⟩

/-- Claim C9: a block whose first query match begins with `WITH`
extracts the full statement from the `WITH` keyword through the next
terminator, and in general every `WITH`-branch match starts at the
keyword's first character and ends with a terminator. -/
theorem C9_with_capture :
    extract_queries (("-- Q1 cte\nWITH t AS (SELECT 1) SELECT * FROM t;").data) =
      [((("Q01").data),
        ⟨(("Q1 cte").data), (("WITH t AS (SELECT 1) SELECT * FROM t").data)⟩)] ∧
    (∀ t g : List Char, tryWith t = some g →
      ∃ c w, t.head? = some c ∧ c.toLower = 'w' ∧ g = c :: w ∧
        g.getLast? = some ';') :=
  ⟨by decide, tryWith_shape⟩

/-- Witness for C9's general part at a concrete block text. -/
theorem C9_with_capture_witness :
    ∃ c w, ((("WITH a SELECT b;").data)).head? = some c ∧ c.toLower = 'w' ∧
      ("WITH a SELECT b;").data = c :: w ∧
      ((("WITH a SELECT b;").data)).getLast? = some ';' :=
  C9_with_capture.2 (("WITH a SELECT b;").data) (("WITH a SELECT b;").data)
    (by decide)

/-- Claim C10: the per-block query search is not quote-aware — for a
block whose first SELECT contains a terminator inside a quoted string,
the extracted sql stops at that in-string terminator, while the splitter
on the same statement keeps the string intact. -/
theorem C10_extractor_not_quote_aware :
    extract_queries (("-- Q1 t\nSELECT 'a;b' FROM x;").data) =
      [((("Q01").data), ⟨(("Q1 t").data), (("SELECT 'a").data)⟩)] ∧
    split_mysql_statements (("SELECT 'a;b' FROM x;").data) =
      [(("SELECT 'a;b' FROM x").data)] :=
  ⟨by decide, by decide⟩
